import Mathlib

/-!
Verification development for the AI-Tools semantic-search engine
(`semantic_search.py`).  Strings are modelled as `List Char`, Python
floats as `ℚ`, and the external collaborators (embedding model and
FAISS index) as an opaque `retrieve` function supplied per query.
Fallible Python code (negative out-of-range indexing raises) is
modelled with `Option`.
-/

/-- Model of Python's whitespace class used by regex `\s` and `str.strip`
on the character set this program handles. -/
def isSpaceChar (c : Char) : Bool :=
  c == ' ' || c == '\t' || c == '\n' || c == '\r' || c.toNat == 11 || c.toNat == 12

/-- Model of Python's regex `\w` (word character) on the character set this
program handles: ASCII alphanumerics, underscore, and the Hebrew letter
block U+05D0 to U+05EA. -/
def isWordChar (c : Char) : Bool :=
  c.isAlphanum || c == '_' || (0x05D0 ≤ c.toNat && c.toNat ≤ 0x05EA)

/-- The ASCII apostrophe character, U+0027. -/
def apos : Char := Char.ofNat 39

/-- Boolean test that the first list is an initial run of the second. -/
def startsWith : List Char → List Char → Bool
  | [], _ => true
  | _ :: _, [] => false
  | c :: k, d :: s => c == d && startsWith k s

/-- Fuel-indexed worker for `replaceAll`; the fuel dominates the length of
the string being scanned, so the zero-fuel fallback is never reached. -/
def replaceAllF (k e : List Char) : Nat → List Char → List Char
  | _, [] => []
  | 0, s => s
  | fuel + 1, c :: rest =>
    if startsWith k (c :: rest) && !k.isEmpty then
      e ++ replaceAllF k e fuel (rest.drop (k.length - 1))
    else
      c :: replaceAllF k e fuel rest

/-- Model of Python `str.replace(k, e)` for a nonempty pattern `k`:
scan left to right, replacing every non-overlapping occurrence of `k`
by `e`.  (The table in the source only ever supplies nonempty keys;
for an empty key this model is the identity.) -/
def replaceAll (k e s : List Char) : List Char := replaceAllF k e s.length s

/-- Step (b) of the normalizer: `re.sub(r'[^\w\s]', ' ', s)` replaces every
character that is neither a word character nor whitespace by a space. -/
def toWordSpace (s : List Char) : List Char :=
  s.map (fun c => if isWordChar c || isSpaceChar c then c else ' ')

/-- Step (c) of the normalizer: `re.sub(r'\s+', ' ', s)` collapses every
run of whitespace to a single space (emitted at the end of the run). -/
def collapseWS : List Char → List Char
  | [] => []
  | [c] => if isSpaceChar c then [' '] else [c]
  | c :: d :: rest =>
    if isSpaceChar c then
      if isSpaceChar d then collapseWS (d :: rest)
      else ' ' :: collapseWS (d :: rest)
    else c :: collapseWS (d :: rest)

/-- Remove all trailing whitespace from a list of characters. -/
def dropTrailingWS : List Char → List Char
  | [] => []
  | c :: rest =>
    let r := dropTrailingWS rest
    if r.isEmpty && isSpaceChar c then [] else c :: r

/-- Model of Python `str.strip()`: remove leading and trailing whitespace. -/
def trimWS (s : List Char) : List Char :=
  dropTrailingWS (s.dropWhile isSpaceChar)

/-- The bilingual substitution table `hebrew_to_english` from
`preprocess_query` (`semantic_search.py` lines 111 to 136), in source
(insertion) order. -/
def hebrewToEnglish : List (List Char × List Char) :=
  [ ("צ".data ++ [apos] ++ "אט".data, "chat".data),
    ("צאט".data, "chat".data),
    ("בוט".data, "bot".data),
    ("תמונה".data, "image".data),
    ("תמונות".data, "image".data),
    ("וידאו".data, "video".data),
    ("וידיו".data, "video".data),
    ("סרטון".data, "video".data),
    ("טקסט".data, "text".data),
    ("כתיבה".data, "writing".data),
    ("עיצוב".data, "design".data),
    ("יצירה".data, "generation create".data),
    ("חינמי".data, "free".data),
    ("בחינם".data, "free".data),
    ("בתשלום".data, "paid".data),
    ("עריכה".data, "editing".data),
    ("קוד".data, "code".data),
    ("תכנות".data, "programming code".data),
    ("אתר".data, "website".data),
    ("לוגו".data, "logo".data),
    ("מוסיקה".data, "music".data),
    ("קול".data, "voice audio".data),
    ("תרגום".data, "translation".data),
    ("שפה".data, "language".data) ]

/-- Apply every substitution of the table, in table order, by sequential
whole-string replacement (the `for hebrew, english in ...: query.replace`
loop). -/
def applyHebrewSubs (s : List Char) : List Char :=
  hebrewToEnglish.foldl (fun q kv => replaceAll kv.1 kv.2 q) s

/-- Steps (b) to (d) of the normalizer: punctuation removal, whitespace
collapsing and trimming. -/
def cleanText (s : List Char) : List Char :=
  trimWS (collapseWS (toWordSpace s))

/-- Model of `AIToolsSemanticSearch.preprocess_query`
(`semantic_search.py` lines 108 to 146): bilingual substitution, then
punctuation removal, whitespace collapsing and trimming. -/
def preprocess_query (s : List Char) : List Char :=
  cleanText (applyHebrewSubs s)

/-- No run of two whitespace characters occurs. -/
def noTwoSpaces : List Char → Bool
  | [] => true
  | [_] => true
  | c :: d :: rest => !(isSpaceChar c && isSpaceChar d) && noTwoSpaces (d :: rest)

/-- The last character, if any, is not whitespace. -/
def lastNotSpace : List Char → Bool
  | [] => true
  | [c] => !isSpaceChar c
  | _ :: d :: rest => lastNotSpace (d :: rest)

/-- Occurrence of `k` as a contiguous run inside `s`. -/
def occursIn (k s : List Char) : Prop := ∃ a b, s = a ++ k ++ b

/-- Chars that may appear in a replacement value of the table: ASCII
lowercase letters and the space. -/
def isReplChar (c : Char) : Bool := c.isLower || c == ' '

/-- Honesty conditions on a substitution table: nonempty keys without
replacement-alphabet characters, nonempty values with only such
characters. -/
def goodTable (tbl : List (List Char × List Char)) : Prop :=
  ∀ kv ∈ tbl, kv.1 ≠ [] ∧ kv.2 ≠ [] ∧
    (∀ c ∈ kv.1, isReplChar c = false) ∧ (∀ c ∈ kv.2, isReplChar c = true)

/-- One catalog record, modelling the Python dict built in
`load_tools_from_db` plus the keys that various methods may add later
(`relevance_score`, `final_score`, `rank`, `pop_num`); a key that has
never been written is `none`. -/
structure Tool where
  name : List Char
  url : List Char
  description : List Char
  category : List Char
  popularity : List Char
  pricing : List Char
  tags : List Char
  relevance_score : Option ℚ := none
  final_score : Option ℚ := none
  rank : Option Nat := none
  pop_num : Option Int := none
deriving DecidableEq

/-- A record with all fields empty, used as a (never reached) default. -/
def emptyTool : Tool :=
  { name := [], url := [], description := [], category := [],
    popularity := [], pricing := [], tags := [] }

/-- Model of `.replace('+', '').replace(',', '')`: delete every plus sign
and comma. -/
def stripPlusComma (s : List Char) : List Char :=
  s.filter (fun c => !(c == '+' || c == ','))

/-- Parse a nonempty run of ASCII digits as a nonnegative integer. -/
def pyDigits (s : List Char) : Option Int :=
  if !s.isEmpty && s.all Char.isDigit then
    some (s.foldl (fun a c => a * 10 + ((c.toNat : Int) - 48)) 0)
  else none

/-- Model of Python `int(s)` on ASCII input: surrounding whitespace is
allowed, then an optional sign followed by one or more digits; anything
else fails. -/
def pyInt (s : List Char) : Option Int :=
  match trimWS s with
  | [] => none
  | c :: rest =>
    if c == '-' then (pyDigits rest).map (fun n => -n)
    else if c == '+' then pyDigits rest
    else pyDigits (c :: rest)

/-- The minimum of two rationals, written out so that it evaluates by
kernel reduction. -/
def ratMin (a b : ℚ) : ℚ := if a ≤ b then a else b

/-- Addition of two rationals, written out (as in `Rat.add_def'`) so that
it evaluates by kernel reduction. -/
def ratAdd (a b : ℚ) : ℚ := mkRat (a.num * b.den + b.num * a.den) (a.den * b.den)

/-- The popularity bonus computed inside `search` (`semantic_search.py`
lines 174 to 181): `0` for an empty or unparseable `popularity` string,
otherwise `min(parsed / 10000, 0.1)`. -/
def popularityBonus (pop : List Char) : ℚ :=
  if pop = [] then 0
  else
    match pyInt (stripPlusComma pop) with
    | some n => ratMin (Rat.divInt n 10000) (Rat.divInt 1 10)
    | none => 0

/-- Model of Python list indexing `tools[idx]` with an `int` index:
negative indices count from the end; an index out of range on the
negative side fails (raises `IndexError`). -/
def pyIndex (tools : List Tool) (idx : Int) : Option Tool :=
  if 0 ≤ idx then tools.get? idx.toNat
  else if 0 ≤ idx + tools.length then tools.get? (idx + tools.length).toNat
  else none

/-- The scored copy built for one retrieved `(score, idx)` pair at
enumeration position `i` (`semantic_search.py` lines 170 to 184). -/
def mkScored (t : Tool) (score : ℚ) (i : Nat) : Tool :=
  { t with relevance_score := some score, rank := some (i + 1),
           final_score := some (ratAdd score (popularityBonus t.popularity)) }

/-- The result-construction loop of `search` (`semantic_search.py` lines
165 to 184): enumerate the retrieved pairs with counter `i` (skipped
pairs still advance `i`), drop any index at least the corpus length,
and build a scored copy for the rest; a negative index below minus the
corpus length raises, modelled as `none`. -/
def buildResults (tools : List Tool) : List (ℚ × Int) → Nat → Option (List Tool)
  | [], _ => some []
  | (score, idx) :: rest, i =>
    if (tools.length : Int) ≤ idx then buildResults tools rest (i + 1)
    else
      match pyIndex tools idx with
      | none => none
      | some t => (buildResults tools rest (i + 1)).map (fun rs => mkScored t score i :: rs)

/-- Sort key used by `results.sort(key=lambda x: x['final_score'], ...)`. -/
def fsKey (t : Tool) : ℚ := t.final_score.getD 0

/-- Sort key used by `tools_with_pop.sort(key=lambda x: x['pop_num'], ...)`. -/
def popKey (t : Tool) : ℚ := ((t.pop_num.getD 0 : Int) : ℚ)

/-- Stable descending insertion: `x` is placed before the first element
whose key is not larger, so earlier elements win ties. -/
def insertDescBy (key : Tool → ℚ) (x : Tool) : List Tool → List Tool
  | [] => [x]
  | y :: ys => if key x < key y then y :: insertDescBy key x ys else x :: y :: ys

/-- Model of Python's stable `list.sort(key=..., reverse=True)`: the unique
stable descending order by `key`. -/
def sortDescBy (key : Tool → ℚ) : List Tool → List Tool
  | [] => []
  | x :: xs => insertDescBy key x (sortDescBy key xs)

/-- Model of `AIToolsSemanticSearch.search` (`semantic_search.py` lines
148 to 190).  The embedding model and FAISS index are one opaque
collaborator `retrieve` mapping the processed query to the returned
`(score, index)` pairs.  An empty raw query (after `strip`) returns an
empty result list before any retrieval. -/
def search (tools : List Tool) (retrieve : List Char → List (ℚ × Int))
    (query : List Char) : Option (List Tool) :=
  if trimWS query = [] then some []
  else (buildResults tools (retrieve (preprocess_query query)) 0).map (sortDescBy fsKey)

/-- Model of Python `str.lower()` on the character set this program
handles (ASCII letters; Hebrew has no case). -/
def pyLower (s : List Char) : List Char := s.map Char.toLower

/-- Boolean test that `k` occurs contiguously inside `s` (Python's
`k in s` on strings). -/
def hasSub (k : List Char) : List Char → Bool
  | [] => k.isEmpty
  | c :: rest => startsWith k (c :: rest) || hasSub k rest

/-- Scan loop of `search_by_category` (`semantic_search.py` lines 194 to
206): `n` is the number of results collected so far; after appending a
match the loop stops as soon as `top_k` results are collected. -/
def searchByCatAux (cat : List Char) (top_k : Nat) : List Tool → Nat → List Tool
  | [], _ => []
  | t :: rest, n =>
    if hasSub (pyLower cat) (pyLower t.category) then
      if top_k ≤ n + 1 then [{ t with rank := some (n + 1), relevance_score := some 1 }]
      else { t with rank := some (n + 1), relevance_score := some 1 } ::
        searchByCatAux cat top_k rest (n + 1)
    else searchByCatAux cat top_k rest n

/-- Model of `AIToolsSemanticSearch.search_by_category`
(`semantic_search.py` lines 192 to 206). -/
def search_by_category (tools : List Tool) (category : List Char) (top_k : Nat) : List Tool :=
  searchByCatAux category top_k tools 0

/-- The in-place field writes done by `get_random_tools` on the `i`-th
sampled record: `rank = i + 1` and `relevance_score = 1.0`. -/
def setRandomFields (i : Nat) (t : Tool) : Tool :=
  { t with rank := some (i + 1), relevance_score := some 1 }

/-- The list returned by `get_random_tools` in the sampling branch: the
records at the sampled positions, with the fields written in place. -/
def pickSample (tools : List Tool) : Nat → List Nat → List Tool
  | _, [] => []
  | i, j :: js => setRandomFields i ((tools.get? j).getD emptyTool) :: pickSample tools (i + 1) js

/-- The corpus as it stands after `get_random_tools` returns: because the
sampled entries are the corpus dicts themselves (no copy), the field
writes land in the corpus.  Position `j` of the corpus is updated
exactly when `j` was sampled, using its position in the sample. -/
def mutateCorpus (sample : List Nat) : Nat → List Tool → List Tool
  | _, [] => []
  | j, t :: ts =>
    (if j ∈ sample then setRandomFields (sample.indexOf j) t else t) ::
      mutateCorpus sample (j + 1) ts

/-- Model of `AIToolsSemanticSearch.get_random_tools` (`semantic_search.py`
lines 217 to 229).  `random.sample` is modelled by the parameter
`sample`, the list of chosen corpus positions in sample order.  The
first component is the corpus after the call, the second the returned
list.  When `count` is at least the corpus size the corpus list itself
is returned, untouched. -/
def get_random_tools (tools : List Tool) (sample : List Nat) (count : Nat) :
    List Tool × List Tool :=
  if tools.length ≤ count then (tools, tools)
  else (mutateCorpus sample 0 tools, pickSample tools 0 sample)

/-- The filtering step of `get_popular_tools` (`semantic_search.py` lines
235 to 243): keep records with a nonempty, parseable `popularity`,
as copies carrying the parsed value in `pop_num`. -/
def withPopNum (t : Tool) : Option Tool :=
  if t.popularity = [] then none
  else (pyInt (stripPlusComma t.popularity)).map (fun n => { t with pop_num := some n })

/-- The final loop of `get_popular_tools`: write `rank` and
`relevance_score` on the selected records in order. -/
def setRanksFrom : Nat → List Tool → List Tool
  | _, [] => []
  | i, t :: ts =>
    { t with rank := some (i + 1), relevance_score := some 1 } :: setRanksFrom (i + 1) ts

/-- Model of `AIToolsSemanticSearch.get_popular_tools`
(`semantic_search.py` lines 231 to 254). -/
def get_popular_tools (tools : List Tool) (top_k : Nat) : List Tool :=
  setRanksFrom 0 ((sortDescBy popKey (tools.filterMap withPopNum)).take top_k)

/-- The blob written by `save_index` (`semantic_search.py` lines 256 to
266): the corpus together with the embedding matrix.  Serialization
itself (`pickle`) is an external collaborator and is modelled as the
identity on this pair. -/
structure SnapshotData where
  tools_data : List Tool
  embeddings : List (List ℚ)
deriving DecidableEq

/-- The engine state restored by `load_index`: corpus, embedding matrix,
and the FAISS index rebuilt by inserting every embedding row, with the
dimension read from `embeddings.shape[1]`. -/
structure LoadedState where
  tools_data : List Tool
  embeddings : List (List ℚ)
  indexVectors : List (List ℚ)
  indexDim : Nat
deriving DecidableEq

/-- Model of `AIToolsSemanticSearch.save_index`. -/
def save_index (tools : List Tool) (embeddings : List (List ℚ)) : SnapshotData :=
  { tools_data := tools, embeddings := embeddings }

/-- Model of `AIToolsSemanticSearch.load_index` (`semantic_search.py`
lines 268 to 287): restore both fields and rebuild the index from the
embedding rows.  Reading the dimension of an empty matrix is the one
failure case expressible in the model. -/
def load_index (snap : SnapshotData) : Option LoadedState :=
  match snap.embeddings.head? with
  | none => none
  | some row =>
    some { tools_data := snap.tools_data, embeddings := snap.embeddings,
           indexVectors := snap.embeddings, indexDim := row.length }

/-- Number of embedding rows held by a loaded state. -/
def embRowCount (st : LoadedState) : Nat := st.embeddings.length

/-- Row lengths (the matrix shape) of a loaded state's embeddings. -/
def embRowLengths (st : LoadedState) : List Nat := st.embeddings.map List.length

/-- Concrete corpus records used in the counterexamples and witnesses. -/
def toolA : Tool := { emptyTool with name := "A".data }

/-- A record whose popularity `1000` already reaches the bonus cap. -/
def toolB : Tool := { emptyTool with name := "B".data, popularity := "1000".data }

/-- A record whose popularity `2000` also reaches the bonus cap. -/
def toolC : Tool := { emptyTool with name := "C".data, popularity := "2000".data }

/-- A categorized record with a small popularity. -/
def toolD : Tool :=
  { emptyTool with name := "D".data, category := "Chatbots".data, popularity := "100".data }

/-- Collaborator stub returning two hits with equal scores. -/
def retrieveTwo : List Char → List (ℚ × Int) :=
  fun _ => [(Rat.divInt 1 2, 0), (Rat.divInt 1 2, 1)]

/-- Collaborator stub returning a single full-score hit. -/
def retrieveOne : List Char → List (ℚ × Int) := fun _ => [(1, 0)]

/-- Collaborator stub returning one hit with the FAISS padding index `-1`. -/
def retrieveNeg : List Char → List (ℚ × Int) := fun _ => [(Rat.divInt 3 4, -1)]

/-- The sorted output of `search` on `[toolB, toolC]` with `retrieveTwo`. -/
def c6res : List Tool :=
  [mkScored toolB (Rat.divInt 1 2) 0, mkScored toolC (Rat.divInt 1 2) 1]
-- occurrence machinery for replaceAll

theorem startsWith_iff (k s : List Char) : startsWith k s = true ↔ ∃ r, s = k ++ r := by
  induction k generalizing s with
  | nil => simp [startsWith]
  | cons c k ih =>
    cases s with
    | nil => simp [startsWith]
    | cons d s =>
      simp only [startsWith, Bool.and_eq_true, beq_iff_eq, ih]
      constructor
      · rintro ⟨rfl, r, rfl⟩; exact ⟨r, rfl⟩
      · rintro ⟨r, h⟩
        injection h with h1 h2
        exact ⟨h1.symm, r, h2⟩

theorem occursIn_nil {k : List Char} (h : occursIn k []) : k = [] := by
  obtain ⟨a, b, hab⟩ := h
  have := congrArg List.length hab
  simp at this
  exact List.eq_nil_of_length_eq_zero (by omega)

theorem occursIn_any_of_nil {s : List Char} : occursIn [] s := ⟨[], s, rfl⟩

theorem occursIn_cons {k : List Char} (c : Char) {s : List Char} (h : occursIn k s) :
    occursIn k (c :: s) := by
  obtain ⟨a, b, rfl⟩ := h
  exact ⟨c :: a, b, rfl⟩

theorem occursIn_of_cons_eq {k : List Char} {c : Char} {s a b : List Char}
    (h : c :: s = a ++ k ++ b) :
    (∃ k', k = c :: k' ∧ ∃ r, s = k' ++ r) ∨ occursIn k s := by
  cases a with
  | nil =>
    cases k with
    | nil => exact Or.inr occursIn_any_of_nil
    | cons k0 k' =>
      simp only [List.nil_append, List.cons_append] at h
      injection h with h1 h2
      exact Or.inl ⟨k', by rw [h1], b, h2⟩
  | cons a0 a' =>
    simp only [List.cons_append] at h
    injection h with h1 h2
    exact Or.inr ⟨a', b, h2⟩

/-- If a concatenation `x ++ y` contains `k`, all of whose characters fail
a test that all of `x`'s characters pass, then the occurrence of `k` lies
entirely inside `y`. -/
theorem occursIn_append_right {P : Char → Bool} {x y k : List Char}
    (hx : ∀ c ∈ x, P c = true) (hk : ∀ c ∈ k, P c = false) (hkne : k ≠ [])
    (h : occursIn k (x ++ y)) : occursIn k y := by
  induction x with
  | nil => simpa using h
  | cons x0 x' ih =>
    obtain ⟨a, b, hab⟩ := h
    cases a with
    | nil =>
      cases k with
      | nil => exact absurd rfl hkne
      | cons k0 k' =>
        simp only [List.nil_append, List.cons_append] at hab
        injection hab with h1 _
        have h2 := hx x0 (by simp)
        rw [h1] at h2
        rw [hk k0 (by simp)] at h2
        cases h2
    | cons a0 a' =>
      simp only [List.cons_append] at hab
      injection hab with _ h2
      exact ih (fun c hc => hx c (List.mem_cons_of_mem _ hc)) ⟨a', b, h2⟩

theorem occursIn_drop {k s : List Char} (n : Nat) (h : occursIn k (s.drop n)) : occursIn k s := by
  obtain ⟨a, b, hab⟩ := h
  refine ⟨s.take n ++ a, b, ?_⟩
  conv_lhs => rw [← List.take_append_drop n s, hab]
  simp

theorem replaceAllF_fuel (k e : List Char) :
    ∀ (f1 : Nat) (s : List Char) (f2 : Nat), s.length ≤ f1 → s.length ≤ f2 →
      replaceAllF k e f1 s = replaceAllF k e f2 s := by
  intro f1
  induction f1 with
  | zero =>
    intro s f2 hs1 _
    have hs : s = [] := List.eq_nil_of_length_eq_zero (Nat.le_zero.mp hs1)
    subst hs
    cases f2 <;> rfl
  | succ f ih =>
    intro s f2 hs1 hs2
    cases s with
    | nil => cases f2 <;> rfl
    | cons c rest =>
      cases f2 with
      | zero => simp at hs2
      | succ f2' =>
        simp only [List.length_cons] at hs1 hs2
        simp only [replaceAllF]
        by_cases h : (startsWith k (c :: rest) && !k.isEmpty) = true
        · rw [if_pos h, if_pos h]
          congr 1
          refine ih _ _ ?_ ?_
          · have := List.length_drop (k.length - 1) rest; omega
          · have := List.length_drop (k.length - 1) rest; omega
        · rw [if_neg h, if_neg h]
          congr 1
          exact ih _ _ (by omega) (by omega)

theorem replaceAll_nil (k e : List Char) : replaceAll k e [] = [] := rfl

theorem replaceAll_cons (k e : List Char) (c : Char) (rest : List Char) :
    replaceAll k e (c :: rest) =
      if startsWith k (c :: rest) && !k.isEmpty then
        e ++ replaceAll k e (rest.drop (k.length - 1))
      else c :: replaceAll k e rest := by
  show replaceAllF k e (c :: rest).length (c :: rest) = _
  simp only [List.length_cons, replaceAllF]
  by_cases h : (startsWith k (c :: rest) && !k.isEmpty) = true
  · rw [if_pos h, if_pos h]
    congr 1
    exact replaceAllF_fuel k e _ _ _ (by have := List.length_drop (k.length - 1) rest; omega) le_rfl
  · rw [if_neg h, if_neg h]
    rfl

/-- A list all of whose characters fail `isReplChar` that starts the output
of `replaceAllF` also starts its input, provided the pattern and the
replacement are honest table entries. -/
theorem replaceAllF_pre {k e : List Char}
    (he : ∀ c ∈ e, isReplChar c = true) (hene : e ≠ []) :
    ∀ (fuel : Nat) (s t : List Char), s.length ≤ fuel → (∀ c ∈ t, isReplChar c = false) →
      (∃ r, replaceAllF k e fuel s = t ++ r) → ∃ r, s = t ++ r := by
  intro fuel
  induction fuel with
  | zero =>
    intro s t hs _ h
    have : s = [] := List.eq_nil_of_length_eq_zero (Nat.le_zero.mp hs)
    subst this
    exact h
  | succ f ih =>
    intro s t hs ht h
    cases s with
    | nil => exact h
    | cons c rest =>
      simp only [List.length_cons] at hs
      simp only [replaceAllF] at h
      by_cases hcond : (startsWith k (c :: rest) && !k.isEmpty) = true
      · rw [if_pos hcond] at h
        cases t with
        | nil => exact ⟨c :: rest, rfl⟩
        | cons t0 t' =>
          obtain ⟨r, hr⟩ := h
          cases e with
          | nil => exact absurd rfl hene
          | cons e0 e' =>
            simp only [List.cons_append] at hr
            injection hr with h1 _
            have hP := he e0 (by simp)
            rw [h1] at hP
            rw [ht t0 (by simp)] at hP
            cases hP
      · rw [if_neg hcond] at h
        cases t with
        | nil => exact ⟨c :: rest, rfl⟩
        | cons t0 t' =>
          obtain ⟨r, hr⟩ := h
          simp only [List.cons_append] at hr
          injection hr with h1 h2
          obtain ⟨r', hr'⟩ := ih rest t' (by omega)
            (fun c hc => ht c (List.mem_cons_of_mem _ hc)) ⟨r, h2⟩
          exact ⟨r', by rw [h1, hr']; rfl⟩

/-- After replacing every occurrence of `k` by `e`, no occurrence of `k`
remains, provided the pattern has no replacement-alphabet characters and
the replacement has only such characters. -/
theorem replaceAllF_kill {k e : List Char}
    (hk : ∀ c ∈ k, isReplChar c = false) (hkne : k ≠ []) (he : ∀ c ∈ e, isReplChar c = true)
    (hene : e ≠ []) :
    ∀ (fuel : Nat) (s : List Char), s.length ≤ fuel → ¬ occursIn k (replaceAllF k e fuel s) := by
  intro fuel
  induction fuel with
  | zero =>
    intro s hs h
    have : s = [] := List.eq_nil_of_length_eq_zero (Nat.le_zero.mp hs)
    subst this
    exact hkne (occursIn_nil h)
  | succ f ih =>
    intro s hs h
    cases s with
    | nil => exact hkne (occursIn_nil h)
    | cons c rest =>
      simp only [List.length_cons] at hs
      simp only [replaceAllF] at h
      by_cases hcond : (startsWith k (c :: rest) && !k.isEmpty) = true
      · rw [if_pos hcond] at h
        have h2 := occursIn_append_right he hk hkne h
        exact ih _ (by have := List.length_drop (k.length - 1) rest; omega) h2
      · rw [if_neg hcond] at h
        obtain ⟨a, b, hab⟩ := h
        rcases occursIn_of_cons_eq hab with ⟨k', hk', r, hr⟩ | hocc
        · obtain ⟨r', hr'⟩ := replaceAllF_pre he hene f rest k' (by omega)
            (fun c hc => hk c (by rw [hk']; exact List.mem_cons_of_mem _ hc)) ⟨r, hr⟩
          have hsw : startsWith k (c :: rest) = true := by
            rw [startsWith_iff]
            exact ⟨r', by rw [hk', hr', List.cons_append]⟩
          rw [hsw] at hcond
          simp [List.isEmpty_iff, hkne] at hcond
        · exact ih _ (by omega) hocc

/-- Replacing `k` by `e` cannot create an occurrence of another pattern
`k'` that has no replacement-alphabet characters. -/
theorem replaceAllF_transfer {k' k e : List Char}
    (hk' : ∀ c ∈ k', isReplChar c = false)
    (he : ∀ c ∈ e, isReplChar c = true) (hene : e ≠ []) :
    ∀ (fuel : Nat) (s : List Char), s.length ≤ fuel →
      occursIn k' (replaceAllF k e fuel s) → occursIn k' s := by
  intro fuel
  induction fuel with
  | zero =>
    intro s hs h
    have : s = [] := List.eq_nil_of_length_eq_zero (Nat.le_zero.mp hs)
    subst this
    exact h
  | succ f ih =>
    intro s hs h
    cases s with
    | nil => exact h
    | cons c rest =>
      simp only [List.length_cons] at hs
      simp only [replaceAllF] at h
      by_cases hk'ne : k' = []
      · subst hk'ne; exact occursIn_any_of_nil
      by_cases hcond : (startsWith k (c :: rest) && !k.isEmpty) = true
      · rw [if_pos hcond] at h
        have h2 := occursIn_append_right he hk' hk'ne h
        have h3 := ih _ (by have := List.length_drop (k.length - 1) rest; omega) h2
        exact occursIn_cons c (occursIn_drop _ h3)
      · rw [if_neg hcond] at h
        obtain ⟨a, b, hab⟩ := h
        rcases occursIn_of_cons_eq hab with ⟨kt, hkt, r, hr⟩ | hocc
        · obtain ⟨r', hr'⟩ := replaceAllF_pre he hene f rest kt (by omega)
            (fun c hc => hk' c (by rw [hkt]; exact List.mem_cons_of_mem _ hc)) ⟨r, hr⟩
          exact ⟨[], r', by rw [hkt, hr', List.nil_append, List.cons_append]⟩
        · exact occursIn_cons c (ih _ (by omega) hocc)

theorem replaceAll_kill {k e : List Char}
    (hk : ∀ c ∈ k, isReplChar c = false) (hkne : k ≠ []) (he : ∀ c ∈ e, isReplChar c = true)
    (hene : e ≠ []) (s : List Char) : ¬ occursIn k (replaceAll k e s) :=
  replaceAllF_kill hk hkne he hene s.length s le_rfl

theorem replaceAll_transfer {k' k e : List Char}
    (hk' : ∀ c ∈ k', isReplChar c = false)
    (he : ∀ c ∈ e, isReplChar c = true) (hene : e ≠ []) {s : List Char}
    (h : occursIn k' (replaceAll k e s)) : occursIn k' s :=
  replaceAllF_transfer hk' he hene s.length s le_rfl h

theorem replaceAll_id {k e s : List Char} (h : ¬ occursIn k s) : replaceAll k e s = s := by
  induction s with
  | nil => rfl
  | cons c rest ih =>
    rw [replaceAll_cons]
    have hsw : ¬ (startsWith k (c :: rest) && !k.isEmpty) = true := by
      intro hc
      rw [Bool.and_eq_true, startsWith_iff] at hc
      obtain ⟨⟨r, hr⟩, _⟩ := hc
      exact h ⟨[], r, by rw [hr]; rfl⟩
    rw [if_neg hsw]
    congr 1
    exact ih (fun hocc => h (occursIn_cons c hocc))

theorem foldl_subs_preserve {tbl : List (List Char × List Char)} (hg : goodTable tbl)
    {k : List Char} (hk : ∀ c ∈ k, isReplChar c = false) :
    ∀ s : List Char, ¬ occursIn k s →
      ¬ occursIn k (tbl.foldl (fun q kv => replaceAll kv.1 kv.2 q) s) := by
  induction tbl with
  | nil => intro s h; simpa using h
  | cons kv rest ih =>
    intro s h
    simp only [List.foldl_cons]
    obtain ⟨_, he2, _, he4⟩ := hg kv (by simp)
    refine ih (fun p hp => hg p (List.mem_cons_of_mem _ hp)) _ ?_
    intro hocc
    exact h (replaceAll_transfer hk he4 he2 hocc)

theorem foldl_subs_no_key {tbl : List (List Char × List Char)} (hg : goodTable tbl) :
    ∀ kv ∈ tbl, ∀ s : List Char,
      ¬ occursIn kv.1 (tbl.foldl (fun q p => replaceAll p.1 p.2 q) s) := by
  induction tbl with
  | nil => intro kv h; simp at h
  | cons p0 rest ih =>
    intro kv hkv s
    obtain ⟨h1, h2, h3, h4⟩ := hg p0 (by simp)
    have hgrest : goodTable rest := fun p hp => hg p (List.mem_cons_of_mem _ hp)
    rcases List.mem_cons.mp hkv with rfl | hmem
    · simp only [List.foldl_cons]
      obtain ⟨k1, k2, k3, k4⟩ := hg kv (by simp)
      exact foldl_subs_preserve hgrest k3 _ (replaceAll_kill k3 k1 k4 k2 s)
    · simp only [List.foldl_cons]
      exact ih hgrest kv hmem _

theorem foldl_subs_id {tbl : List (List Char × List Char)} :
    ∀ s : List Char, (∀ kv ∈ tbl, ¬ occursIn kv.1 s) →
      tbl.foldl (fun q p => replaceAll p.1 p.2 q) s = s := by
  induction tbl with
  | nil => intro s _; rfl
  | cons p0 rest ih =>
    intro s h
    simp only [List.foldl_cons]
    rw [replaceAll_id (h p0 (by simp))]
    exact ih s (fun kv hkv => h kv (List.mem_cons_of_mem _ hkv))

-- transfer through the cleanup passes

theorem mem_occursIn {k s : List Char} (h : occursIn k s) : ∀ c ∈ k, c ∈ s := by
  obtain ⟨a, b, rfl⟩ := h
  intro c hc
  simp [hc]

theorem mem_toWordSpace {c : Char} {z : List Char} (h : c ∈ toWordSpace z) :
    isWordChar c = true ∨ isSpaceChar c = true := by
  obtain ⟨c0, _, hc0⟩ := List.mem_map.mp h
  by_cases hw : (isWordChar c0 || isSpaceChar c0) = true
  · rw [if_pos hw] at hc0
    subst hc0
    rcases Bool.or_eq_true_iff.mp hw with h | h
    · exact Or.inl h
    · exact Or.inr h
  · rw [if_neg hw] at hc0
    subst hc0
    right
    decide

/-- A pattern containing a character that is neither a word character nor
whitespace cannot occur after punctuation removal. -/
theorem toWordSpace_no_special {k z : List Char} {c0 : Char} (hc0 : c0 ∈ k)
    (hw : isWordChar c0 = false) (hs : isSpaceChar c0 = false) :
    ¬ occursIn k (toWordSpace z) := by
  intro h
  rcases mem_toWordSpace (mem_occursIn h c0 hc0) with h1 | h1
  · rw [hw] at h1; cases h1
  · rw [hs] at h1; cases h1

theorem map_split {f : Char → Char} {l x y : List Char} (h : l.map f = x ++ y) :
    ∃ u v, l = u ++ v ∧ u.map f = x ∧ v.map f = y := by
  induction x generalizing l with
  | nil => exact ⟨[], l, rfl, rfl, by simpa using h⟩
  | cons x0 x' ih =>
    cases l with
    | nil => simp at h
    | cons l0 l' =>
      simp only [List.map_cons, List.cons_append] at h
      injection h with h1 h2
      obtain ⟨u, v, rfl, hu, hv⟩ := ih h2
      exact ⟨l0 :: u, v, rfl, by simp [h1, hu], hv⟩

theorem toWordSpace_word_eq {zk k : List Char} (hmap : toWordSpace zk = k)
    (hk : ∀ c ∈ k, isWordChar c = true) : zk = k := by
  induction zk generalizing k with
  | nil => simpa [toWordSpace] using hmap.symm
  | cons z0 z' ih =>
    cases k with
    | nil => simp [toWordSpace] at hmap
    | cons k0 k' =>
      simp only [toWordSpace, List.map_cons] at hmap
      injection hmap with h1 h2
      have hk0 := hk k0 (by simp)
      have hz0 : z0 = k0 := by
        by_cases hw : (isWordChar z0 || isSpaceChar z0) = true
        · rwa [if_pos hw] at h1
        · rw [if_neg hw] at h1
          rw [← h1] at hk0
          cases hk0
      have := ih (k := k') h2 (fun c hc => hk c (List.mem_cons_of_mem _ hc))
      rw [hz0, this]

/-- A pattern made of word characters that occurs after punctuation
removal already occurred before it. -/
theorem toWordSpace_transfer {k z : List Char} (hk : ∀ c ∈ k, isWordChar c = true)
    (h : occursIn k (toWordSpace z)) : occursIn k z := by
  obtain ⟨a, b, hab⟩ := h
  rw [List.append_assoc] at hab
  obtain ⟨u, vw, hz, hu, hvw⟩ := map_split (l := z) hab
  obtain ⟨v, w, hvw2, hv, hw⟩ := map_split (l := vw) hvw
  refine ⟨u, w, ?_⟩
  rw [hz, hvw2, toWordSpace_word_eq hv hk, List.append_assoc]

theorem collapseWS_head_space (rest : List Char) :
    ∀ d : Char, isSpaceChar d = true → ∃ t, collapseWS (d :: rest) = ' ' :: t := by
  induction rest with
  | nil => intro d hd; exact ⟨[], by simp [collapseWS, hd]⟩
  | cons r0 rest' ih =>
    intro d hd
    by_cases hr : isSpaceChar r0 = true
    · obtain ⟨t, ht⟩ := ih r0 hr
      exact ⟨t, by simp only [collapseWS, hd, hr, if_pos]; exact ht⟩
    · exact ⟨collapseWS (r0 :: rest'), by simp [collapseWS, hd, hr]⟩

theorem collapseWS_head_nonspace {d : Char} (rest : List Char) (hd : isSpaceChar d = false) :
    ∃ t, collapseWS (d :: rest) = d :: t := by
  cases rest with
  | nil => exact ⟨[], by simp [collapseWS, hd]⟩
  | cons r0 rest' => exact ⟨collapseWS (r0 :: rest'), by simp [collapseWS, hd]⟩

/-- A whitespace-free list that starts the collapsed string also starts the
original. -/
theorem collapseWS_pre :
    ∀ z k : List Char, (∀ c ∈ k, isSpaceChar c = false) →
      (∃ r, collapseWS z = k ++ r) → ∃ r, z = k ++ r := by
  intro z
  induction z with
  | nil => intro k _ h; simpa [collapseWS] using h
  | cons c rest ih =>
    intro k hk h
    cases k with
    | nil => exact ⟨c :: rest, rfl⟩
    | cons k0 k' =>
      have hk0 := hk k0 (by simp)
      obtain ⟨r, hr⟩ := h
      cases rest with
      | nil =>
        by_cases hc : isSpaceChar c = true
        · simp only [collapseWS, if_pos hc, List.cons_append] at hr
          injection hr with h1 _
          rw [← h1] at hk0
          exact absurd hk0 (by decide)
        · simp only [collapseWS, if_neg hc, List.cons_append] at hr
          injection hr with h1 h2
          have h3 := h2.symm
          rw [List.append_eq_nil] at h3
          obtain ⟨rfl, rfl⟩ := h3
          exact ⟨[], by simp [h1]⟩
      | cons d rest' =>
        by_cases hc : isSpaceChar c = true
        · by_cases hd : isSpaceChar d = true
          · rw [show collapseWS (c :: d :: rest') = collapseWS (d :: rest') by
                simp [collapseWS, hc, hd]] at hr
            obtain ⟨t, ht⟩ := collapseWS_head_space rest' d hd
            rw [ht, List.cons_append] at hr
            injection hr with h1 _
            rw [← h1] at hk0
            exact absurd hk0 (by decide)
          · rw [show collapseWS (c :: d :: rest') = ' ' :: collapseWS (d :: rest') by
                simp [collapseWS, hc, hd]] at hr
            simp only [List.cons_append] at hr
            injection hr with h1 _
            rw [← h1] at hk0
            exact absurd hk0 (by decide)
        · rw [show collapseWS (c :: d :: rest') = c :: collapseWS (d :: rest') by
              simp [collapseWS, hc]] at hr
          simp only [List.cons_append] at hr
          injection hr with h1 h2
          obtain ⟨r', hr'⟩ := ih k' (fun x hx => hk x (List.mem_cons_of_mem _ hx)) ⟨r, h2⟩
          exact ⟨r', by rw [h1, hr']; rfl⟩

/-- A whitespace-free pattern that occurs in the collapsed string also
occurs in the original. -/
theorem collapseWS_occ :
    ∀ z k : List Char, (∀ c ∈ k, isSpaceChar c = false) →
      occursIn k (collapseWS z) → occursIn k z := by
  intro z
  induction z with
  | nil =>
    intro k _ h
    rw [show collapseWS [] = [] from rfl] at h
    rw [occursIn_nil h]
    exact occursIn_any_of_nil
  | cons c rest ih =>
    intro k hk h
    cases rest with
    | nil =>
      by_cases hc : isSpaceChar c = true
      · rw [show collapseWS [c] = [' '] by simp [collapseWS, hc]] at h
        obtain ⟨a, b, hab⟩ := h
        rcases occursIn_of_cons_eq hab with ⟨k', hk', r, hr⟩ | hocc
        · have := hk ' ' (by rw [hk']; simp)
          exact absurd this (by decide)
        · rw [occursIn_nil hocc]
          exact occursIn_any_of_nil
      · rw [show collapseWS [c] = [c] by simp [collapseWS, hc]] at h
        exact h
    | cons d rest' =>
      by_cases hc : isSpaceChar c = true
      · by_cases hd : isSpaceChar d = true
        · rw [show collapseWS (c :: d :: rest') = collapseWS (d :: rest') by
              simp [collapseWS, hc, hd]] at h
          exact occursIn_cons c (ih k hk h)
        · rw [show collapseWS (c :: d :: rest') = ' ' :: collapseWS (d :: rest') by
              simp [collapseWS, hc, hd]] at h
          obtain ⟨a, b, hab⟩ := h
          rcases occursIn_of_cons_eq hab with ⟨k', hk', r, hr⟩ | hocc
          · have := hk ' ' (by rw [hk']; simp)
            exact absurd this (by decide)
          · exact occursIn_cons c (ih k hk hocc)
      · rw [show collapseWS (c :: d :: rest') = c :: collapseWS (d :: rest') by
            simp [collapseWS, hc]] at h
        obtain ⟨a, b, hab⟩ := h
        rcases occursIn_of_cons_eq hab with ⟨k', hk', r, hr⟩ | hocc
        · obtain ⟨r', hr'⟩ := collapseWS_pre (d :: rest') k'
            (fun x hx => hk x (by rw [hk']; exact List.mem_cons_of_mem _ hx)) ⟨r, hr⟩
          exact ⟨[], r', by rw [hk', hr']; rfl⟩
        · exact occursIn_cons c (ih k hk hocc)

theorem dropTrailingWS_decomp (z : List Char) : ∃ r, z = dropTrailingWS z ++ r := by
  induction z with
  | nil => exact ⟨[], rfl⟩
  | cons c rest ih =>
    obtain ⟨r, hr⟩ := ih
    simp only [dropTrailingWS]
    by_cases h : ((dropTrailingWS rest).isEmpty && isSpaceChar c) = true
    · rw [if_pos h]
      exact ⟨c :: rest, rfl⟩
    · rw [if_neg h]
      exact ⟨r, by rw [List.cons_append, ← hr]⟩

theorem trimWS_transfer {k z : List Char} (h : occursIn k (trimWS z)) : occursIn k z := by
  obtain ⟨a, b, hab⟩ := h
  obtain ⟨r, hr⟩ := dropTrailingWS_decomp (z.dropWhile isSpaceChar)
  refine ⟨z.takeWhile isSpaceChar ++ a, b ++ r, ?_⟩
  conv_lhs => rw [← List.takeWhile_append_dropWhile isSpaceChar z]
  rw [hr]
  unfold trimWS at hab
  rw [hab]
  simp

theorem htabGood : goodTable hebrewToEnglish := by
  unfold goodTable
  decide

theorem htabSpaceFree : ∀ kv ∈ hebrewToEnglish, ∀ c ∈ kv.1, isSpaceChar c = false := by decide

theorem htabWordOrSpecial : ∀ kv ∈ hebrewToEnglish,
    (∀ c ∈ kv.1, isWordChar c = true) ∨
      (∃ c ∈ kv.1, isWordChar c = false ∧ isSpaceChar c = false) := by decide

/-- No key of the substitution table occurs in a normalized query. -/
theorem no_key_in_preprocess (s : List Char) :
    ∀ kv ∈ hebrewToEnglish, ¬ occursIn kv.1 (preprocess_query s) := by
  intro kv hkv hocc
  have h1 : occursIn kv.1 (collapseWS (toWordSpace (applyHebrewSubs s))) := trimWS_transfer hocc
  have hsf := htabSpaceFree kv hkv
  have h2 := collapseWS_occ _ _ hsf h1
  rcases htabWordOrSpecial kv hkv with hw | ⟨c0, hc0, hcw, hcs⟩
  · have h3 := toWordSpace_transfer hw h2
    exact foldl_subs_no_key htabGood kv hkv s h3
  · exact toWordSpace_no_special hc0 hcw hcs h2

theorem applyHebrewSubs_preprocess (s : List Char) :
    applyHebrewSubs (preprocess_query s) = preprocess_query s :=
  foldl_subs_id _ (fun kv hkv => no_key_in_preprocess s kv hkv)

-- identity of the cleanup passes on already-clean text

theorem mem_collapseWS {c : Char} : ∀ {v : List Char}, c ∈ collapseWS v → c ∈ v ∨ c = ' ' := by
  intro v
  induction v with
  | nil => intro h; simp [collapseWS] at h
  | cons c0 rest ih =>
    intro h
    cases rest with
    | nil =>
      by_cases h0 : isSpaceChar c0 = true
      · simp only [collapseWS, if_pos h0] at h
        simp at h
        exact Or.inr h
      · simp only [collapseWS, if_neg h0] at h
        simp at h
        exact Or.inl (by simp [h])
    | cons d rest' =>
      by_cases h0 : isSpaceChar c0 = true
      · by_cases hd : isSpaceChar d = true
        · rw [show collapseWS (c0 :: d :: rest') = collapseWS (d :: rest') by
              simp [collapseWS, h0, hd]] at h
          rcases ih h with h | h
          · exact Or.inl (List.mem_cons_of_mem _ h)
          · exact Or.inr h
        · rw [show collapseWS (c0 :: d :: rest') = ' ' :: collapseWS (d :: rest') by
              simp [collapseWS, h0, hd]] at h
          rcases List.mem_cons.mp h with rfl | h
          · exact Or.inr rfl
          · rcases ih h with h | h
            · exact Or.inl (List.mem_cons_of_mem _ h)
            · exact Or.inr h
      · rw [show collapseWS (c0 :: d :: rest') = c0 :: collapseWS (d :: rest') by
            simp [collapseWS, h0]] at h
        rcases List.mem_cons.mp h with rfl | h
        · exact Or.inl (by simp)
        · rcases ih h with h | h
          · exact Or.inl (List.mem_cons_of_mem _ h)
          · exact Or.inr h

theorem collapseWS_space_is_blank {c : Char} :
    ∀ {v : List Char}, c ∈ collapseWS v → isSpaceChar c = true → c = ' ' := by
  intro v
  induction v with
  | nil => intro h _; simp [collapseWS] at h
  | cons c0 rest ih =>
    intro h hsp
    cases rest with
    | nil =>
      by_cases h0 : isSpaceChar c0 = true
      · simp only [collapseWS, if_pos h0] at h
        simpa using h
      · simp only [collapseWS, if_neg h0] at h
        simp at h
        rw [h] at hsp
        rw [hsp] at h0
        simp at h0
    | cons d rest' =>
      by_cases h0 : isSpaceChar c0 = true
      · by_cases hd : isSpaceChar d = true
        · rw [show collapseWS (c0 :: d :: rest') = collapseWS (d :: rest') by
              simp [collapseWS, h0, hd]] at h
          exact ih h hsp
        · rw [show collapseWS (c0 :: d :: rest') = ' ' :: collapseWS (d :: rest') by
              simp [collapseWS, h0, hd]] at h
          rcases List.mem_cons.mp h with rfl | h
          · rfl
          · exact ih h hsp
      · rw [show collapseWS (c0 :: d :: rest') = c0 :: collapseWS (d :: rest') by
            simp [collapseWS, h0]] at h
        rcases List.mem_cons.mp h with rfl | h
        · rw [hsp] at h0; simp at h0
        · exact ih h hsp

theorem noTwoSpaces_tail {c : Char} {x : List Char} (h : noTwoSpaces (c :: x) = true) :
    noTwoSpaces x = true := by
  cases x with
  | nil => rfl
  | cons d rest =>
    simp only [noTwoSpaces, Bool.and_eq_true] at h
    exact h.2

theorem noTwoSpaces_cons_nonspace {c : Char} {x : List Char} (hc : isSpaceChar c = false)
    (h : noTwoSpaces x = true) : noTwoSpaces (c :: x) = true := by
  cases x with
  | nil => rfl
  | cons d rest =>
    simp only [noTwoSpaces, Bool.and_eq_true]
    exact ⟨by simp [hc], h⟩

theorem collapseWS_noTwoSpaces : ∀ v : List Char, noTwoSpaces (collapseWS v) = true := by
  intro v
  induction v with
  | nil => rfl
  | cons c rest ih =>
    cases rest with
    | nil =>
      by_cases h0 : isSpaceChar c = true
      · simp [collapseWS, h0, noTwoSpaces]
      · simp [collapseWS, h0, noTwoSpaces]
    | cons d rest' =>
      by_cases h0 : isSpaceChar c = true
      · by_cases hd : isSpaceChar d = true
        · rw [show collapseWS (c :: d :: rest') = collapseWS (d :: rest') by
              simp [collapseWS, h0, hd]]
          exact ih
        · rw [show collapseWS (c :: d :: rest') = ' ' :: collapseWS (d :: rest') by
              simp [collapseWS, h0, hd]]
          obtain ⟨t, ht⟩ := collapseWS_head_nonspace rest' (by simpa using hd)
          rw [ht]
          rw [ht] at ih
          simp only [noTwoSpaces, Bool.and_eq_true]
          exact ⟨by simp [hd], ih⟩
      · rw [show collapseWS (c :: d :: rest') = c :: collapseWS (d :: rest') by
            simp [collapseWS, h0]]
        exact noTwoSpaces_cons_nonspace (by simp [h0]) ih

theorem noTwoSpaces_append_right {x y : List Char} (h : noTwoSpaces (x ++ y) = true) :
    noTwoSpaces y = true := by
  induction x with
  | nil => exact h
  | cons c x' ih => exact ih (noTwoSpaces_tail h)

theorem noTwoSpaces_append_left {x y : List Char} (h : noTwoSpaces (x ++ y) = true) :
    noTwoSpaces x = true := by
  induction x with
  | nil => rfl
  | cons c x' ih =>
    cases x' with
    | nil => rfl
    | cons d x'' =>
      simp only [List.cons_append, noTwoSpaces, Bool.and_eq_true] at h ⊢
      exact ⟨h.1, ih h.2⟩

theorem lastNotSpace_dropTrailingWS : ∀ z : List Char, lastNotSpace (dropTrailingWS z) = true := by
  intro z
  induction z with
  | nil => rfl
  | cons c rest ih =>
    simp only [dropTrailingWS]
    by_cases h : ((dropTrailingWS rest).isEmpty && isSpaceChar c) = true
    · rw [if_pos h]; rfl
    · rw [if_neg h]
      cases hdr : dropTrailingWS rest with
      | nil =>
        rw [hdr] at h
        simp only [List.isEmpty_nil, Bool.true_and] at h
        simp only [lastNotSpace]
        simp [h]
      | cons d t =>
        rw [hdr] at ih
        simpa only [lastNotSpace] using ih

theorem dropTrailingWS_id {z : List Char} (h : lastNotSpace z = true) :
    dropTrailingWS z = z := by
  induction z with
  | nil => rfl
  | cons c rest ih =>
    have hstep : dropTrailingWS (c :: rest) =
        if ((dropTrailingWS rest).isEmpty && isSpaceChar c) = true then []
        else c :: dropTrailingWS rest := rfl
    cases rest with
    | nil =>
      simp only [lastNotSpace] at h
      simp at h
      rw [hstep]
      simp [h, dropTrailingWS]
    | cons d rest' =>
      simp only [lastNotSpace] at h
      have hdr := ih h
      rw [hstep, hdr]
      simp

theorem dropWhile_head_false {z : List Char} {c : Char} {t : List Char} {p : Char → Bool}
    (h : z.dropWhile p = c :: t) : p c = false := by
  induction z with
  | nil => simp at h
  | cons z0 z' ih =>
    by_cases h0 : p z0 = true
    · rw [List.dropWhile_cons_of_pos h0] at h
      exact ih h
    · rw [List.dropWhile_cons_of_neg h0] at h
      injection h with h1 _
      rw [← h1]
      simpa using h0

theorem dropTrailingWS_head {z : List Char} {c : Char} {t : List Char}
    (h : dropTrailingWS z = c :: t) : ∃ t', z = c :: t' := by
  cases z with
  | nil => simp [dropTrailingWS] at h
  | cons z0 z' =>
    simp only [dropTrailingWS] at h
    by_cases h0 : ((dropTrailingWS z').isEmpty && isSpaceChar z0) = true
    · rw [if_pos h0] at h; cases h
    · rw [if_neg h0] at h
      injection h with h1 _
      exact ⟨z', by rw [h1]⟩

theorem toWordSpace_id {w : List Char}
    (h : ∀ c ∈ w, isWordChar c = true ∨ isSpaceChar c = true) : toWordSpace w = w := by
  induction w with
  | nil => rfl
  | cons c rest ih =>
    simp only [toWordSpace, List.map_cons]
    have hc : (isWordChar c || isSpaceChar c) = true := by
      rcases h c (by simp) with h1 | h1 <;> simp [h1]
    rw [if_pos hc]
    congr 1
    exact ih (fun x hx => h x (List.mem_cons_of_mem _ hx))

theorem collapseWS_id : ∀ w : List Char,
    (∀ c ∈ w, isSpaceChar c = true → c = ' ') → noTwoSpaces w = true →
      lastNotSpace w = true → collapseWS w = w := by
  intro w
  induction w with
  | nil => intro _ _ _; rfl
  | cons c rest ih =>
    intro hsp hnts hlns
    cases rest with
    | nil =>
      simp only [lastNotSpace] at hlns
      simp only [collapseWS]
      rw [if_neg (by simp at hlns; simp [hlns])]
    | cons d rest' =>
      simp only [noTwoSpaces, Bool.and_eq_true] at hnts
      simp only [lastNotSpace] at hlns
      have hrest := ih (fun x hx => hsp x (List.mem_cons_of_mem _ hx)) hnts.2 hlns
      by_cases h0 : isSpaceChar c = true
      · have hd : isSpaceChar d = false := by
          have h1 := hnts.1
          rw [h0] at h1
          simpa using h1
        rw [show collapseWS (c :: d :: rest') = ' ' :: collapseWS (d :: rest') by
            simp [collapseWS, h0, hd]]
        rw [hrest, hsp c (by simp) h0]
      · rw [show collapseWS (c :: d :: rest') = c :: collapseWS (d :: rest') by
            simp [collapseWS, h0]]
        rw [hrest]

theorem mem_dropTrailingWS {c : Char} {z : List Char} (h : c ∈ dropTrailingWS z) : c ∈ z := by
  obtain ⟨r, hr⟩ := dropTrailingWS_decomp z
  rw [hr]
  exact List.mem_append_left _ h

theorem mem_dropWhileWS {c : Char} {z : List Char} (h : c ∈ z.dropWhile isSpaceChar) : c ∈ z := by
  have hz := List.takeWhile_append_dropWhile isSpaceChar z
  rw [← hz]
  exact List.mem_append_right _ h

theorem mem_trimWS {c : Char} {z : List Char} (h : c ∈ trimWS z) : c ∈ z :=
  mem_dropWhileWS (mem_dropTrailingWS h)

theorem trimWS_id {w : List Char}
    (hhead : ∀ c t, w = c :: t → isSpaceChar c = false)
    (hlast : lastNotSpace w = true) : trimWS w = w := by
  unfold trimWS
  have hdw : w.dropWhile isSpaceChar = w := by
    cases w with
    | nil => rfl
    | cons c t => rw [List.dropWhile_cons_of_neg (by rw [hhead c t rfl]; simp)]
  rw [hdw]
  exact dropTrailingWS_id hlast

/-- Cleanup is idempotent: the output of `cleanText` is left unchanged by
a second pass. -/
theorem cleanText_idem (z : List Char) : cleanText (cleanText z) = cleanText z := by
  set w := cleanText z with hw
  have hw2 : w = dropTrailingWS ((collapseWS (toWordSpace z)).dropWhile isSpaceChar) := rfl
  have hmem : ∀ c ∈ w, c ∈ collapseWS (toWordSpace z) := by
    intro c hc
    rw [hw2] at hc
    exact mem_dropWhileWS (mem_dropTrailingWS hc)
  have hws : ∀ c ∈ w, isWordChar c = true ∨ isSpaceChar c = true := by
    intro c hc
    rcases mem_collapseWS (hmem c hc) with h | rfl
    · exact mem_toWordSpace h
    · right; decide
  have hblank : ∀ c ∈ w, isSpaceChar c = true → c = ' ' := by
    intro c hc hsp
    exact collapseWS_space_is_blank (hmem c hc) hsp
  have hnts : noTwoSpaces w = true := by
    have h1 : noTwoSpaces (collapseWS (toWordSpace z)) = true := collapseWS_noTwoSpaces _
    have h2 : noTwoSpaces ((collapseWS (toWordSpace z)).dropWhile isSpaceChar) = true := by
      have := (List.takeWhile_append_dropWhile isSpaceChar (collapseWS (toWordSpace z)))
      rw [← this] at h1
      exact noTwoSpaces_append_right h1
    obtain ⟨r, hr⟩ := dropTrailingWS_decomp ((collapseWS (toWordSpace z)).dropWhile isSpaceChar)
    rw [hr] at h2
    rw [hw2]
    exact noTwoSpaces_append_left h2
  have hlast : lastNotSpace w = true := by
    rw [hw2]
    exact lastNotSpace_dropTrailingWS _
  have hhead : ∀ c t, w = c :: t → isSpaceChar c = false := by
    intro c t hct
    rw [hw2] at hct
    obtain ⟨t', ht'⟩ := dropTrailingWS_head hct
    exact dropWhile_head_false ht'
  show trimWS (collapseWS (toWordSpace w)) = w
  rw [toWordSpace_id hws, collapseWS_id w hblank hnts hlast, trimWS_id hhead hlast]

/-- Query normalization is idempotent. -/
theorem preprocess_query_idem (s : List Char) :
    preprocess_query (preprocess_query s) = preprocess_query s := by
  show cleanText (applyHebrewSubs (preprocess_query s)) = preprocess_query s
  rw [applyHebrewSubs_preprocess]
  exact cleanText_idem (applyHebrewSubs s)

-- stable descending sort lemmas

theorem mem_insertDescBy {key : Tool → ℚ} {x z : Tool} :
    ∀ {l : List Tool}, z ∈ insertDescBy key x l ↔ z = x ∨ z ∈ l := by
  intro l
  induction l with
  | nil => simp [insertDescBy]
  | cons y ys ih =>
    simp only [insertDescBy]
    by_cases h : key x < key y
    · rw [if_pos h]
      simp only [List.mem_cons, ih]
      tauto
    · rw [if_neg h]
      simp only [List.mem_cons]

theorem mem_sortDescBy {key : Tool → ℚ} {z : Tool} :
    ∀ {l : List Tool}, z ∈ sortDescBy key l ↔ z ∈ l := by
  intro l
  induction l with
  | nil => simp [sortDescBy]
  | cons x xs ih =>
    simp only [sortDescBy, mem_insertDescBy, List.mem_cons, ih]

theorem insertDescBy_pairwise (key : Tool → ℚ) (x : Tool) {l : List Tool}
    (h : l.Pairwise (fun a b => key b ≤ key a)) :
    (insertDescBy key x l).Pairwise (fun a b => key b ≤ key a) := by
  induction l with
  | nil => simp [insertDescBy]
  | cons y ys ih =>
    rcases List.pairwise_cons.mp h with ⟨hy, hys⟩
    simp only [insertDescBy]
    by_cases hxy : key x < key y
    · rw [if_pos hxy]
      refine List.pairwise_cons.mpr ⟨?_, ih hys⟩
      intro z hz
      rcases mem_insertDescBy.mp hz with rfl | hz'
      · exact le_of_lt hxy
      · exact hy z hz'
    · rw [if_neg hxy]
      refine List.pairwise_cons.mpr ⟨?_, h⟩
      intro z hz
      rcases List.mem_cons.mp hz with rfl | hz'
      · exact le_of_not_lt hxy
      · exact le_trans (hy z hz') (le_of_not_lt hxy)

theorem sortDescBy_pairwise (key : Tool → ℚ) :
    ∀ l : List Tool, (sortDescBy key l).Pairwise (fun a b => key b ≤ key a) := by
  intro l
  induction l with
  | nil => simp [sortDescBy]
  | cons x xs ih => exact insertDescBy_pairwise key x ih

theorem filter_insertDescBy_eq {key : Tool → ℚ} {x : Tool} {v : ℚ} (hx : key x = v) :
    ∀ l : List Tool, (insertDescBy key x l).filter (fun t => key t == v) =
      x :: l.filter (fun t => key t == v) := by
  intro l
  induction l with
  | nil => simp [insertDescBy, hx]
  | cons y ys ih =>
    simp only [insertDescBy]
    by_cases h : key x < key y
    · rw [if_pos h]
      have hyv : (key y == v) = false := by
        simp only [beq_eq_false_iff_ne, ne_eq]
        intro he
        rw [hx] at h
        rw [he] at h
        exact lt_irrefl v h
      rw [List.filter_cons, List.filter_cons]
      simp only [hyv]
      simp only [ih]
      simp
    · rw [if_neg h]
      rw [List.filter_cons]
      simp [hx]

theorem filter_insertDescBy_ne {key : Tool → ℚ} {x : Tool} {v : ℚ} (hx : key x ≠ v) :
    ∀ l : List Tool, (insertDescBy key x l).filter (fun t => key t == v) =
      l.filter (fun t => key t == v) := by
  have hxv : (key x == v) = false := by simpa using hx
  intro l
  induction l with
  | nil => simp [insertDescBy, hxv]
  | cons y ys ih =>
    simp only [insertDescBy]
    by_cases h : key x < key y
    · rw [if_pos h]
      rw [List.filter_cons, List.filter_cons, ih]
    · rw [if_neg h]
      rw [List.filter_cons]
      simp only [hxv]
      simp

/-- Stability of the sort: elements with any fixed key value keep their
relative order. -/
theorem filter_sortDescBy (key : Tool → ℚ) (v : ℚ) :
    ∀ l : List Tool, (sortDescBy key l).filter (fun t => key t == v) =
      l.filter (fun t => key t == v) := by
  intro l
  induction l with
  | nil => rfl
  | cons x xs ih =>
    by_cases h : key x = v
    · rw [sortDescBy, filter_insertDescBy_eq h, ih, List.filter_cons]
      simp [h]
    · rw [sortDescBy, filter_insertDescBy_ne h, ih, List.filter_cons]
      simp [h]

-- result-construction loop lemmas

theorem pyIndex_mem {tools : List Tool} {idx : Int} {t : Tool} (h : pyIndex tools idx = some t) :
    t ∈ tools := by
  unfold pyIndex at h
  by_cases h0 : 0 ≤ idx
  · rw [if_pos h0] at h
    exact List.get?_mem h
  · rw [if_neg h0] at h
    by_cases h1 : 0 ≤ idx + tools.length
    · rw [if_pos h1] at h
      exact List.get?_mem h
    · rw [if_neg h1] at h
      cases h

/-- Every element of the build list is a scored copy of a corpus record. -/
theorem buildResults_shape {tools : List Tool} :
    ∀ (pairs : List (ℚ × Int)) (n : Nat) (res : List Tool),
      buildResults tools pairs n = some res →
      ∀ r ∈ res, ∃ t s i, t ∈ tools ∧ r = mkScored t s i := by
  intro pairs
  induction pairs with
  | nil =>
    intro n res h r hr
    simp only [buildResults] at h
    injection h with h
    rw [← h] at hr
    cases hr
  | cons p rest ih =>
    intro n res h r hr
    obtain ⟨score, idx⟩ := p
    simp only [buildResults] at h
    by_cases hc : (tools.length : Int) ≤ idx
    · rw [if_pos hc] at h
      exact ih _ _ h r hr
    · rw [if_neg hc] at h
      cases hpi : pyIndex tools idx with
      | none => rw [hpi] at h; cases h
      | some t =>
        rw [hpi] at h
        rcases Option.map_eq_some'.mp h with ⟨rs, hrs, hres⟩
        rw [← hres] at hr
        rcases List.mem_cons.mp hr with rfl | hr'
        · exact ⟨t, score, n, pyIndex_mem hpi, rfl⟩
        · exact ih _ _ hrs r hr'

/-- The pair at position `i` of the retrieved list, when its index passes
the bound check and resolves to a corpus record, contributes the scored
copy of that record with rank `i + 1`. -/
theorem buildResults_mem {tools : List Tool} {s : ℚ} {idx : Int} {t : Tool} :
    ∀ (pre post : List (ℚ × Int)) (n : Nat) (res : List Tool),
      buildResults tools (pre ++ (s, idx) :: post) n = some res →
      ¬ (tools.length : Int) ≤ idx →
      pyIndex tools idx = some t →
      mkScored t s (n + pre.length) ∈ res := by
  intro pre
  induction pre with
  | nil =>
    intro post n res hres hidx hget
    simp only [List.nil_append, buildResults, if_neg hidx, hget] at hres
    rcases Option.map_eq_some'.mp hres with ⟨rs, _, hres2⟩
    rw [← hres2]
    simp
  | cons p pre' ih =>
    intro post n res hres hidx hget
    obtain ⟨ps, pidx⟩ := p
    simp only [List.cons_append, buildResults] at hres
    by_cases hc : (tools.length : Int) ≤ pidx
    · rw [if_pos hc] at hres
      have h2 := ih post (n + 1) res hres hidx hget
      have : n + 1 + pre'.length = n + (pre'.length + 1) := by omega
      rw [this] at h2
      simpa using h2
    · rw [if_neg hc] at hres
      cases hpi : pyIndex tools pidx with
      | none => rw [hpi] at hres; cases hres
      | some t' =>
        rw [hpi] at hres
        rcases Option.map_eq_some'.mp hres with ⟨rs, hrs, hres2⟩
        rw [← hres2]
        have h2 := ih post (n + 1) rs hrs hidx hget
        have : n + 1 + pre'.length = n + (pre'.length + 1) := by omega
        rw [this] at h2
        exact List.mem_cons_of_mem _ (by simpa using h2)

/-- Negative indices hit the corpus from the end: `pyIndex` at `-m` for
`1 ≤ m ≤ length` returns the record `m` positions from the end. -/
theorem pyIndex_neg {tools : List Tool} {m : Nat} (h1 : 1 ≤ m) (h2 : m ≤ tools.length) :
    pyIndex tools (-(m : Int)) = tools.get? (tools.length - m) := by
  unfold pyIndex
  rw [if_neg (by omega)]
  rw [if_pos (by omega)]
  congr 1
  omega

-- bridges between the kernel-computable rational operations and Mathlib's

theorem ratAdd_eq (a b : ℚ) : ratAdd a b = a + b := (Rat.add_def' a b).symm

theorem ratMin_eq (a b : ℚ) : ratMin a b = min a b := (min_def a b).symm

theorem pyInt_nil : pyInt [] = none := rfl

/-- The bonus formula in the spec's terms. -/
theorem popularityBonus_spec (pop : List Char) :
    popularityBonus pop =
      match pyInt (stripPlusComma pop) with
      | some n => min ((n : ℚ) / 10000) (1 / 10)
      | none => 0 := by
  unfold popularityBonus
  by_cases h : pop = []
  · subst h
    rw [if_pos rfl]
    rfl
  · rw [if_neg h]
    cases hp : pyInt (stripPlusComma pop) with
    | none => rfl
    | some n =>
      show ratMin (Rat.divInt n 10000) (Rat.divInt 1 10) = _
      rw [ratMin_eq, Rat.divInt_eq_div, Rat.divInt_eq_div]
      norm_num

-- membership shapes for the non-similarity retrieval modes

theorem searchByCatAux_mem {cat : List Char} {top_k : Nat} :
    ∀ (ts : List Tool) (n : Nat) (r : Tool), r ∈ searchByCatAux cat top_k ts n →
      ∃ t m, t ∈ ts ∧ r = { t with rank := some (m + 1), relevance_score := some 1 } := by
  intro ts
  induction ts with
  | nil => intro n r hr; simp [searchByCatAux] at hr
  | cons t rest ih =>
    intro n r hr
    simp only [searchByCatAux] at hr
    by_cases hm : hasSub (pyLower cat) (pyLower t.category) = true
    · rw [if_pos hm] at hr
      by_cases hk : top_k ≤ n + 1
      · rw [if_pos hk] at hr
        simp at hr
        exact ⟨t, n, by simp, hr⟩
      · rw [if_neg hk] at hr
        rcases List.mem_cons.mp hr with rfl | hr'
        · exact ⟨t, n, by simp, rfl⟩
        · obtain ⟨t', m, ht', hr''⟩ := ih (n + 1) r hr'
          exact ⟨t', m, List.mem_cons_of_mem _ ht', hr''⟩
    · rw [if_neg hm] at hr
      obtain ⟨t', m, ht', hr''⟩ := ih n r hr
      exact ⟨t', m, List.mem_cons_of_mem _ ht', hr''⟩

theorem setRanksFrom_mem :
    ∀ (l : List Tool) (i : Nat) (r : Tool), r ∈ setRanksFrom i l →
      ∃ t m, t ∈ l ∧ r = { t with rank := some (m + 1), relevance_score := some 1 } := by
  intro l
  induction l with
  | nil => intro i r hr; simp [setRanksFrom] at hr
  | cons t rest ih =>
    intro i r hr
    simp only [setRanksFrom] at hr
    rcases List.mem_cons.mp hr with rfl | hr'
    · exact ⟨t, i, by simp, rfl⟩
    · obtain ⟨t', m, ht', hr''⟩ := ih (i + 1) r hr'
      exact ⟨t', m, List.mem_cons_of_mem _ ht', hr''⟩

theorem withPopNum_mem {t r : Tool} (h : withPopNum t = some r) :
    ∃ n : Int, r = { t with pop_num := some n } := by
  unfold withPopNum at h
  by_cases ht : t.popularity = []
  · rw [if_pos ht] at h; cases h
  · rw [if_neg ht] at h
    rcases Option.map_eq_some'.mp h with ⟨n, _, hr⟩
    exact ⟨n, hr.symm⟩

theorem pickSample_mem {tools : List Tool} :
    ∀ (sample : List Nat) (i : Nat) (r : Tool), r ∈ pickSample tools i sample →
      ∃ j m, j ∈ sample ∧ r = setRandomFields m ((tools.get? j).getD emptyTool) := by
  intro sample
  induction sample with
  | nil => intro i r hr; simp [pickSample] at hr
  | cons j js ih =>
    intro i r hr
    simp only [pickSample] at hr
    rcases List.mem_cons.mp hr with rfl | hr'
    · exact ⟨j, i, by simp, rfl⟩
    · obtain ⟨j', m, hj', hr''⟩ := ih (i + 1) r hr'
      exact ⟨j', m, List.mem_cons_of_mem _ hj', hr''⟩

theorem pickSample_length {tools : List Tool} :
    ∀ (sample : List Nat) (i : Nat), (pickSample tools i sample).length = sample.length := by
  intro sample
  induction sample with
  | nil => intro i; rfl
  | cons j js ih => intro i; simp only [pickSample, List.length_cons, ih]

-- Claim C1

/-- Claim C1, counterexample: ranks are written before the final sort, so
after a popularity bonus reorders two equal-relevance hits the first
returned element carries rank 2 and the second rank 1 — rank does not
equal final position. -/
theorem C1_rank_counterexample :
    ((search [toolA, toolB] retrieveTwo ("chat".data)).getD []).map Tool.rank
      = [some 2, some 1] := by decide

/-- Claim C1 as amended: a non-empty `search` result is the stable
descending sort of the build list by `final_score` (ties keep the
similarity index's order), but each `rank` equals one plus the position
of the element's pair in the retrieved sequence, assigned before
sorting, not the final position. -/
theorem C1_sorted_stable_rank (tools : List Tool) (retrieve : List Char → List (ℚ × Int))
    (query : List Char) (base res : List Tool)
    (hq : trimWS query ≠ [])
    (hb : buildResults tools (retrieve (preprocess_query query)) 0 = some base)
    (hres : search tools retrieve query = some res) :
    res = sortDescBy fsKey base ∧
    res.Pairwise (fun a b => fsKey b ≤ fsKey a) ∧
    (∀ v : ℚ, res.filter (fun t => fsKey t == v) = base.filter (fun t => fsKey t == v)) ∧
    (∀ pre post s idx t, retrieve (preprocess_query query) = pre ++ (s, idx) :: post →
      ¬ (tools.length : Int) ≤ idx → pyIndex tools idx = some t →
      mkScored t s pre.length ∈ res ∧ (mkScored t s pre.length).rank = some (pre.length + 1)) := by
  unfold search at hres
  rw [if_neg hq, hb] at hres
  simp only [Option.map_some'] at hres
  injection hres with hres
  subst hres
  refine ⟨rfl, sortDescBy_pairwise fsKey base, fun v => filter_sortDescBy fsKey v base, ?_⟩
  intro pre post s idx t hp hidx hget
  rw [hp] at hb
  have h1 := buildResults_mem pre post 0 base hb hidx hget
  rw [Nat.zero_add] at h1
  exact ⟨mem_sortDescBy.mpr h1, rfl⟩

/-- Witness for C1: the amended statement instantiated on the
counterexample corpus. -/
theorem C1_sorted_stable_rank_witness :
    [mkScored toolB (Rat.divInt 1 2) 1, mkScored toolA (Rat.divInt 1 2) 0]
      = sortDescBy fsKey [mkScored toolA (Rat.divInt 1 2) 0, mkScored toolB (Rat.divInt 1 2) 1] :=
  (C1_sorted_stable_rank [toolA, toolB] retrieveTwo ("chat".data)
    [mkScored toolA (Rat.divInt 1 2) 0, mkScored toolB (Rat.divInt 1 2) 1]
    [mkScored toolB (Rat.divInt 1 2) 1, mkScored toolA (Rat.divInt 1 2) 0]
    (by decide) (by decide) (by decide)).1

-- Claim C2

/-- Claim C2 is broken by the code (its own test expects copies): with the
test's corpus of two records and `count = 2` the corpus list itself comes
back, records shared, and sampling one of two writes `rank` and
`relevance_score` into the corpus record in place. -/
theorem C2_random_no_copies :
    get_random_tools [toolA, toolB] [] 2 = ([toolA, toolB], [toolA, toolB]) ∧
    (get_random_tools [toolA, toolB] [0] 1).1 ≠ [toolA, toolB] ∧
    (get_random_tools [toolA, toolB] [0] 1).1 = [setRandomFields 0 toolA, toolB] := by
  decide

-- Claim C3

/-- Claim C3, counterexample: an all-punctuation query normalizes to the
empty string yet is not short-circuited; with a collaborator returning a
hit, `search "!!!"` returns one result instead of the empty sequence. -/
theorem C3_counterexample :
    preprocess_query ("!!!".data) = [] ∧ trimWS ("!!!".data) ≠ [] ∧
    search [toolA] retrieveOne ("!!!".data) = some [mkScored toolA 1 0] := by decide

/-- Claim C3 as amended: only queries that are empty or all whitespace
(empty after `strip`) short-circuit to an empty result. -/
theorem C3_empty_query (tools : List Tool) (retrieve : List Char → List (ℚ × Int))
    (query : List Char) (hq : trimWS query = []) :
    search tools retrieve query = some [] := by
  unfold search
  rw [if_pos hq]

/-- Witness for C3: the whitespace-only query. -/
theorem C3_empty_query_witness : search [toolA] retrieveOne ("   ".data) = some [] :=
  C3_empty_query [toolA] retrieveOne ("   ".data) (by decide)

-- Claim C4

/-- Claim C4, counterexample: records returned by the category, popular
and random modes carry no `final_score` at all (`none`, never `1.0`), and
the large-count random branch does not even set `relevance_score`. -/
theorem C4_no_final_score :
    (search_by_category [toolD, toolA] ("chat".data) 20).map Tool.final_score = [none] ∧
    (get_popular_tools [toolD, toolA] 20).map Tool.final_score = [none] ∧
    ((get_random_tools [toolD, toolA] [0] 1).2).map Tool.final_score = [none] ∧
    (get_random_tools [toolD, toolA] [] 5).2 = [toolD, toolA] ∧
    toolD.relevance_score = none := by decide

/-- Claim C4 as amended: on a freshly loaded corpus, the category and
popular modes, and the random mode with `count` below the corpus size,
set `relevance_score = 1.0` on every returned record and never set
`final_score`; the random mode with `count` at least the corpus size
returns the corpus records untouched. -/
theorem C4_scores (tools : List Tool) (cat : List Char) (sample : List Nat)
    (count top_k : Nat)
    (hfresh : ∀ t ∈ tools, t.final_score = none)
    (hsample : ∀ j ∈ sample, j < tools.length) :
    (∀ r ∈ search_by_category tools cat top_k,
      r.relevance_score = some 1 ∧ r.final_score = none) ∧
    (∀ r ∈ get_popular_tools tools top_k,
      r.relevance_score = some 1 ∧ r.final_score = none) ∧
    (count < tools.length →
      ∀ r ∈ (get_random_tools tools sample count).2,
        r.relevance_score = some 1 ∧ r.final_score = none) ∧
    (tools.length ≤ count → (get_random_tools tools sample count).2 = tools) := by
  refine ⟨?_, ?_, ?_, ?_⟩
  · intro r hr
    obtain ⟨t, m, ht, rfl⟩ := searchByCatAux_mem tools 0 r hr
    exact ⟨rfl, hfresh t ht⟩
  · intro r hr
    obtain ⟨t', m, ht', rfl⟩ := setRanksFrom_mem _ 0 r hr
    have ht'2 : t' ∈ sortDescBy popKey (tools.filterMap withPopNum) :=
      List.take_subset _ _ ht'
    have ht'3 : t' ∈ tools.filterMap withPopNum := mem_sortDescBy.mp ht'2
    obtain ⟨t, ht, hw⟩ := List.mem_filterMap.mp ht'3
    obtain ⟨n, rfl⟩ := withPopNum_mem hw
    exact ⟨rfl, hfresh t ht⟩
  · intro hcount r hr
    unfold get_random_tools at hr
    rw [if_neg (by omega)] at hr
    obtain ⟨j, m, hj, rfl⟩ := pickSample_mem sample 0 r hr
    have hjl := hsample j hj
    have hget : tools.get? j = some (tools.get ⟨j, hjl⟩) := List.get?_eq_get hjl
    refine ⟨rfl, ?_⟩
    show ((tools.get? j).getD emptyTool).final_score = none
    rw [hget]
    exact hfresh _ (List.get_mem tools j hjl)
  · intro hcount
    unfold get_random_tools
    rw [if_pos hcount]

/-- Witness for C4: the one record the category mode returns on a
concrete two-record corpus carries `relevance_score = 1` and no
`final_score`. -/
theorem C4_scores_witness :
    ({ toolD with rank := some 1, relevance_score := some 1 } : Tool).relevance_score = some 1 ∧
    ({ toolD with rank := some 1, relevance_score := some 1 } : Tool).final_score = none :=
  (C4_scores [toolD, toolA] ("chat".data) [0] 1 20 (by decide) (by decide)).1
    { toolD with rank := some 1, relevance_score := some 1 } (by decide)

-- Claim C5

/-- Claim C5: every record a `search` call returns has
`final_score = relevance_score + popularity_bonus`, where the bonus
strips `+` and `,` from `popularity`, parses an integer, is `0` on
failure and `min(parsed / 10000, 0.1)` on success; for popularity
`1,000,000` the bonus is exactly `0.1`. -/
theorem C5_final_score (tools : List Tool) (retrieve : List Char → List (ℚ × Int))
    (query : List Char) (res : List Tool) (r : Tool)
    (hs : search tools retrieve query = some res) (hr : r ∈ res) :
    r.relevance_score = some (r.relevance_score.getD 0) ∧
    r.final_score = some (r.relevance_score.getD 0 +
      (match pyInt (stripPlusComma r.popularity) with
       | some n => min ((n : ℚ) / 10000) (1 / 10)
       | none => 0)) ∧
    popularityBonus ("1,000,000".data) = 1 / 10 := by
  have hcap : popularityBonus ("1,000,000".data) = 1 / 10 := by
    have h1 : popularityBonus ("1,000,000".data) = Rat.divInt 1 10 := by decide
    rw [h1, Rat.divInt_eq_div]
    norm_num
  unfold search at hs
  by_cases hq : trimWS query = []
  · rw [if_pos hq] at hs
    injection hs with hs
    rw [← hs] at hr
    cases hr
  · rw [if_neg hq] at hs
    rcases Option.map_eq_some'.mp hs with ⟨base, hb, hsort⟩
    rw [← hsort] at hr
    have hrb := mem_sortDescBy.mp hr
    obtain ⟨t, s, i, _, rfl⟩ := buildResults_shape _ 0 base hb r hrb
    refine ⟨rfl, ?_, hcap⟩
    show some (ratAdd s (popularityBonus t.popularity)) = _
    rw [ratAdd_eq, popularityBonus_spec]
    rfl

/-- Witness for C5: the capped bonus, obtained from the theorem at a
concrete search call. -/
theorem C5_final_score_witness : popularityBonus ("1,000,000".data) = 1 / 10 :=
  (C5_final_score [toolA] retrieveOne ("chat".data) [mkScored toolA 1 0]
    (mkScored toolA 1 0) (by decide) (by simp)).2.2

-- Claim C6

/-- Claim C6, counterexample: both popularities 1000 and 2000 reach the
0.1 bonus cap, final scores tie, and the stable sort keeps the
lower-popularity record first — the record with the larger parseable
popularity ranks strictly lower. -/
theorem C6_counterexample :
    ((search [toolB, toolC] retrieveTwo ("chat".data)).getD []).map Tool.popularity
      = ["1000".data, "2000".data] ∧
    ((search [toolB, toolC] retrieveTwo ("chat".data)).getD []).map Tool.relevance_score
      = [some (Rat.divInt 1 2), some (Rat.divInt 1 2)] ∧
    pyInt (stripPlusComma ("1000".data)) = some 1000 ∧
    pyInt (stripPlusComma ("2000".data)) = some 2000 := by decide

/-- Claim C6 as amended: among equal-relevance records of one search
result, positions are ordered by popularity bonus — a later record never
has a strictly larger bonus; since the bonus caps at parsed value 1000,
two different popularities at or above 1000 tie and keep index order. -/
theorem C6_bonus_order (tools : List Tool) (retrieve : List Char → List (ℚ × Int))
    (query : List Char) (res : List Tool) (a b : Nat)
    (ha : a < res.length) (hb : b < res.length) (hab : a ≤ b)
    (hs : search tools retrieve query = some res)
    (heq : (res.get ⟨a, ha⟩).relevance_score = (res.get ⟨b, hb⟩).relevance_score) :
    popularityBonus (res.get ⟨b, hb⟩).popularity ≤
      popularityBonus (res.get ⟨a, ha⟩).popularity := by
  rcases Nat.lt_or_ge a b with hlt | hge
  · unfold search at hs
    by_cases hq : trimWS query = []
    · rw [if_pos hq] at hs
      injection hs with hs
      subst hs
      simp at ha
    · rw [if_neg hq] at hs
      rcases Option.map_eq_some'.mp hs with ⟨base, hbase, hsort⟩
      have hpw : res.Pairwise (fun x y => fsKey y ≤ fsKey x) := by
        rw [← hsort]; exact sortDescBy_pairwise fsKey base
      have hfs := List.pairwise_iff_get.mp hpw ⟨a, ha⟩ ⟨b, hb⟩ hlt
      have hshape := buildResults_shape _ 0 base hbase
      have hmem : ∀ i : Fin res.length, res.get i ∈ base := by
        intro i
        have h2 : res.get i ∈ sortDescBy fsKey base := by
          rw [hsort]
          exact List.get_mem res i.1 i.2
        exact mem_sortDescBy.mp h2
      obtain ⟨ta, sa, ia, _, hra⟩ := hshape _ (hmem ⟨a, ha⟩)
      obtain ⟨tb, sb, ib, _, hrb⟩ := hshape _ (hmem ⟨b, hb⟩)
      rw [hra, hrb] at heq hfs ⊢
      have hsab : sa = sb := by
        simpa [mkScored] using heq
      unfold fsKey at hfs
      simp only [mkScored, Option.getD_some] at hfs ⊢
      rw [ratAdd_eq, ratAdd_eq, hsab] at hfs
      simpa using hfs
  · have hba : a = b := by omega
    subst hba
    exact le_refl _

/-- Witness for C6: the amended ordering fact on the counterexample
corpus. -/
theorem C6_bonus_order_witness :
    popularityBonus (c6res.get ⟨1, by decide⟩).popularity ≤
      popularityBonus (c6res.get ⟨0, by decide⟩).popularity :=
  C6_bonus_order [toolB, toolC] retrieveTwo ("chat".data) c6res 0 1
    (by decide) (by decide) (by decide) (by decide) (by decide)

-- Claim C7

/-- Claim C7: query normalization is idempotent — normalizing an already
normalized query changes nothing. -/
theorem C7_preprocess_idem (s : List Char) :
    preprocess_query (preprocess_query s) = preprocess_query s :=
  preprocess_query_idem s

-- Claim C8

/-- Claim C8: the bilingual normalizer maps the documented Hebrew query
with an apostrophe and trailing punctuation to exactly `chat bot free`. -/
theorem C8_bilingual_example :
    preprocess_query ("צ".data ++ [apos] ++ "אט בוט חינמי!!!".data) = "chat bot free".data := by
  decide

-- Claim C9

/-- Claim C9: loading the snapshot written by `save_index` restores the
corpus with identical content, an embedding matrix of identical shape,
and rebuilds the index from exactly those rows. -/
theorem C9_snapshot_roundtrip (tools : List Tool) (emb : List (List ℚ))
    (htools : tools ≠ []) (halign : emb.length = tools.length) :
    (load_index (save_index tools emb)).map LoadedState.tools_data = some tools ∧
    (load_index (save_index tools emb)).map embRowCount = some emb.length ∧
    (load_index (save_index tools emb)).map embRowLengths = some (emb.map List.length) ∧
    (load_index (save_index tools emb)).map LoadedState.indexVectors = some emb := by
  have hemb : emb ≠ [] := by
    intro h
    rw [h] at halign
    simp at halign
    exact htools (List.eq_nil_of_length_eq_zero halign.symm)
  obtain ⟨row, rest, rfl⟩ := List.exists_cons_of_ne_nil hemb
  simp [save_index, load_index, embRowCount, embRowLengths]

/-- Witness for C9: round trip on a one-record corpus with one embedding
row. -/
theorem C9_snapshot_roundtrip_witness :
    (load_index (save_index [toolA] [[1, 0]])).map LoadedState.tools_data = some [toolA] ∧
    (load_index (save_index [toolA] [[1, 0]])).map embRowCount = some 1 ∧
    (load_index (save_index [toolA] [[1, 0]])).map embRowLengths = some [2] ∧
    (load_index (save_index [toolA] [[1, 0]])).map LoadedState.indexVectors = some [[1, 0]] := by
  have h := C9_snapshot_roundtrip [toolA] [[1, 0]] (by decide) (by decide)
  exact h

-- Claim C10

/-- Claim C10: the defensive check only rejects indices at least the
corpus length, so a negative index `-m` from the collaborator (FAISS
padding) with `1 ≤ m ≤ length` is accepted and yields a scored copy of
the record `m` positions from the end of the corpus. -/
theorem C10_negative_index (tools : List Tool) (retrieve : List Char → List (ℚ × Int))
    (query : List Char) (res : List Tool) (pre post : List (ℚ × Int)) (s : ℚ) (m : Nat)
    (h1 : 1 ≤ m) (h2 : m ≤ tools.length)
    (hq : trimWS query ≠ [])
    (hpairs : retrieve (preprocess_query query) = pre ++ (s, -(m : Int)) :: post)
    (hs : search tools retrieve query = some res) :
    mkScored ((tools.get? (tools.length - m)).getD emptyTool) s pre.length ∈ res := by
  unfold search at hs
  rw [if_neg hq] at hs
  rcases Option.map_eq_some'.mp hs with ⟨base, hb, hsort⟩
  rw [hpairs] at hb
  have hbound : ¬ (tools.length : Int) ≤ -(m : Int) := by
    omega
  have hlt : tools.length - m < tools.length := by omega
  have hget : tools.get? (tools.length - m) = some (tools.get ⟨tools.length - m, hlt⟩) :=
    List.get?_eq_get hlt
  have hpy : pyIndex tools (-(m : Int)) = some (tools.get ⟨tools.length - m, hlt⟩) := by
    rw [pyIndex_neg h1 h2, hget]
  have hmem := buildResults_mem pre post 0 base hb hbound hpy
  rw [Nat.zero_add] at hmem
  rw [← hsort]
  rw [hget]
  exact mem_sortDescBy.mpr hmem

/-- Witness for C10: FAISS's `-1` padding index against a two-record
corpus yields the last record. -/
theorem C10_negative_index_witness :
    mkScored (([toolA, toolB].get? ([toolA, toolB].length - 1)).getD emptyTool)
      (Rat.divInt 3 4) ([] : List (ℚ × Int)).length
      ∈ [mkScored toolB (Rat.divInt 3 4) 0] :=
  C10_negative_index [toolA, toolB] retrieveNeg ("chat".data)
    [mkScored toolB (Rat.divInt 3 4) 0] [] [] (Rat.divInt 3 4) 1
    (by decide) (by decide) (by decide) (by decide) (by decide)
